import Mathlib

set_option linter.unusedSectionVars false

/-!
A shallow embedding of the AsynchronousCache class template
(include/AsynchronousCache/AsynchronousCache.h).

The cache proper is the ordered entry list m_entries (head = front of the
std::list, tail = back).  The abstract backing store, i.e. the pure virtual
member functions Load, Unload, HasRoomFor and GetElement that a derived class
must override, is modelled as a record of functions over an abstract store
state sigma.  Load and Unload may update the store state; HasRoomFor and
GetElement are modelled as pure observations of it, which is what the
documented backing-store contract requires of them (HasRoomFor is a capacity
predicate, GetElement a repeatable readiness poll).  A null Element pointer
is modelled as none.
-/

namespace AsynchronousCache

/-- The four entry states of the source enum Entry::State. -/
inductive State
  | requested
  | prefetched
  | available
  | released
deriving DecidableEq

/-- A cache entry, as in the nested class Entry: the key, the lifecycle
state, the handle returned by Load, and the element pointer, which the
constructor initializes to null (none). -/
structure Entry (Key Handle Elem : Type) where
  key : Key
  state : State
  handle : Handle
  pElement : Option Elem
deriving DecidableEq

/-- The abstract backing store: the four pure virtual member functions the
cache calls.  Load returns a handle and may update the store state; Unload
updates the store state; HasRoomFor and GetElement observe it. -/
structure BackingStore (σ Key Handle Elem : Type) where
  load : σ → Key → Handle × σ
  unload : σ → Handle → σ
  hasRoomFor : σ → Key → Bool
  getElement : σ → Handle → Option Elem

variable {σ Key Handle Elem : Type} [DecidableEq Key] [DecidableEq Elem]

/-- Splits a list at the first element satisfying p, returning the elements
before it, the element itself, and the elements after it.  This models
std::find_if over the entry list together with the surgery the cache then
performs at the returned iterator. -/
def splitFirst {α : Type} (p : α → Bool) : List α → Option (List α × α × List α)
  | [] => none
  | x :: xs =>
    if p x then some ([], x, xs)
    else
      match splitFirst p xs with
      | none => none
      | some (pre, e, post) => some (x :: pre, e, post)

/-- The functor Entry::key_equals: true when the entry has the given key. -/
def keyMatch (key : Key) (e : Entry Key Handle Elem) : Bool :=
  e.key == key

/-- The functor Entry::pointer_equals: true when the entry holds the given
element pointer (none models a null pointer). -/
def elemMatch (p : Option Elem) (e : Entry Key Handle Elem) : Bool :=
  e.pElement == p

/-- Evict as it acts on the backing store: Unload the handle of the entry.
The erasure of the entry from the list is done at each call site by the
surrounding list surgery. -/
def Evict (bs : BackingStore σ Key Handle Elem) (s : σ) (e : Entry Key Handle Elem) : σ :=
  bs.unload s e.handle

/-- The scan loop of MakeRoomForNewEntry.  Walks the list from head toward
tail; while HasRoomFor is false, entries in the released or prefetched state
are evicted (Unload and erase) and all other entries are skipped in place.
The loop stops when HasRoomFor becomes true or the tail is reached. -/
def makeRoomGo (bs : BackingStore σ Key Handle Elem) (key : Key) :
    List (Entry Key Handle Elem) → σ → List (Entry Key Handle Elem) × σ
  | [], s => ([], s)
  | e :: rest, s =>
    if bs.hasRoomFor s key then (e :: rest, s)
    else if e.state = State.released ∨ e.state = State.prefetched then
      makeRoomGo bs key rest (Evict bs s e)
    else
      (e :: (makeRoomGo bs key rest s).1, (makeRoomGo bs key rest s).2)

/-- MakeRoomForNewEntry: runs the eviction scan and returns the final value
of HasRoomFor together with the updated entry list and store state. -/
def MakeRoomForNewEntry (bs : BackingStore σ Key Handle Elem)
    (c : List (Entry Key Handle Elem)) (s : σ) (key : Key) :
    Bool × List (Entry Key Handle Elem) × σ :=
  (bs.hasRoomFor (makeRoomGo bs key c s).2 key,
   (makeRoomGo bs key c s).1,
   (makeRoomGo bs key c s).2)

/-- Fetch: makes room for a new entry; on success starts the Load and
appends a new entry (with null element pointer) at the tail of the list.
The Bool records whether the entry was created (iterator not end). -/
def Fetch (bs : BackingStore σ Key Handle Elem)
    (c : List (Entry Key Handle Elem)) (s : σ) (key : Key) (st : State) :
    Bool × List (Entry Key Handle Elem) × σ :=
  let r := MakeRoomForNewEntry bs c s key
  if r.1 then
    let l := bs.load r.2.2 key
    (true, r.2.1 ++ [⟨key, st, l.1, none⟩], l.2)
  else
    (false, r.2.1, r.2.2)

/-- Request: if the key is present, dispatches on the entry state
(requested and available do nothing, prefetched polls GetElement and
promotes to available or requested, released is reloaded in place to
available) and returns true; if absent, fetches a new requested entry. -/
def Request (bs : BackingStore σ Key Handle Elem)
    (c : List (Entry Key Handle Elem)) (s : σ) (key : Key) :
    Bool × List (Entry Key Handle Elem) × σ :=
  match splitFirst (keyMatch key) c with
  | none => Fetch bs c s key State.requested
  | some (pre, e, post) =>
    match e.state with
    | State.requested => (true, c, s)
    | State.available => (true, c, s)
    | State.prefetched =>
      match bs.getElement s e.handle with
      | some p => (true, pre ++ { e with state := State.available, pElement := some p } :: post, s)
      | none => (true, pre ++ { e with state := State.requested } :: post, s)
    | State.released => (true, pre ++ { e with state := State.available } :: post, s)

/-- Prefetch: if the key is present, requested and available entries are
left alone and prefetched or released entries are spliced to the tail with
their state unchanged; if absent, fetches a new prefetched entry. -/
def Prefetch (bs : BackingStore σ Key Handle Elem)
    (c : List (Entry Key Handle Elem)) (s : σ) (key : Key) :
    List (Entry Key Handle Elem) × σ :=
  match splitFirst (keyMatch key) c with
  | none => (Fetch bs c s key State.prefetched).2
  | some (pre, e, post) =>
    match e.state with
    | State.requested => (c, s)
    | State.available => (c, s)
    | State.prefetched => (pre ++ post ++ [e], s)
    | State.released => (pre ++ post ++ [e], s)

/-- Get: if the key is absent, returns null.  Otherwise, when the entry is
in the requested state, polls GetElement and on readiness stores the pointer
and promotes the entry to available; in every found case the returned value
is the entry element pointer after this update. -/
def Get (bs : BackingStore σ Key Handle Elem) (s : σ)
    (c : List (Entry Key Handle Elem)) (key : Key) :
    Option Elem × List (Entry Key Handle Elem) :=
  match splitFirst (keyMatch key) c with
  | none => (none, c)
  | some (pre, e, post) =>
    if e.state = State.requested then
      match bs.getElement s e.handle with
      | some p => (some p, pre ++ { e with state := State.available, pElement := some p } :: post)
      | none => (e.pElement, c)
    else
      (e.pElement, c)

/-- The private Release overload taking an iterator, given here by the split
of the list at the found entry.  Requested entries and forced evictions are
evicted; available entries are marked released and spliced to the tail; any
other state falls into the error branch of the source, which does nothing
(the contract violation is noted only by a comment). -/
def ReleaseFound (bs : BackingStore σ Key Handle Elem) (s : σ)
    (pre : List (Entry Key Handle Elem)) (e : Entry Key Handle Elem)
    (post : List (Entry Key Handle Elem)) (force : Bool) :
    List (Entry Key Handle Elem) × σ :=
  if e.state = State.requested ∨ force = true then
    (pre ++ post, Evict bs s e)
  else if e.state = State.available then
    (pre ++ post ++ [{ e with state := State.released }], s)
  else
    (pre ++ e :: post, s)

/-- Release by key: finds the first entry with the key and dispatches; does
nothing when the key is absent. -/
def Release (bs : BackingStore σ Key Handle Elem)
    (c : List (Entry Key Handle Elem)) (s : σ) (key : Key) (force : Bool) :
    List (Entry Key Handle Elem) × σ :=
  match splitFirst (keyMatch key) c with
  | none => (c, s)
  | some (pre, e, post) => ReleaseFound bs s pre e post force

/-- Release by element pointer: finds the first entry whose element pointer
equals the given pointer (possibly null) and dispatches; does nothing when
no entry holds that pointer. -/
def ReleaseElem (bs : BackingStore σ Key Handle Elem)
    (c : List (Entry Key Handle Elem)) (s : σ) (p : Option Elem) (force : Bool) :
    List (Entry Key Handle Elem) × σ :=
  match splitFirst (elemMatch p) c with
  | none => (c, s)
  | some (pre, e, post) => ReleaseFound bs s pre e post force

/-- IsEmpty, modelled by the value the source computes into its local
variable, namely m_entries.empty().  The source function computes this value
but is missing the return statement that would hand it back, so the value
actually returned by the compiled function is undefined; this definition
models the computed value, which is also the documented intent. -/
def IsEmpty (c : List (Entry Key Handle Elem)) : Bool :=
  c.isEmpty

/-- IsCached: true when the key is present and the entry is available or
released. -/
def IsCached (c : List (Entry Key Handle Elem)) (key : Key) : Bool :=
  match splitFirst (keyMatch key) c with
  | none => false
  | some (_, e, _) => e.state = State.available ∨ e.state = State.released

/-- Clear: the loop that evicts every entry starting at the head until the
list is empty. -/
def Clear (bs : BackingStore σ Key Handle Elem) :
    List (Entry Key Handle Elem) → σ → List (Entry Key Handle Elem) × σ
  | [], s => ([], s)
  | e :: rest, s => Clear bs rest (Evict bs s e)

/-- Folds Evict (that is, Unload of the handle) over a list of entries in
order; used to describe the store state after a sequence of evictions. -/
def unloadAll (bs : BackingStore σ Key Handle Elem) (s : σ)
    (l : List (Entry Key Handle Elem)) : σ :=
  l.foldl (Evict bs) s

/-- The keys of the entries of the cache, in list order. -/
def keys (c : List (Entry Key Handle Elem)) : List Key :=
  c.map Entry.key

/-- Coherence of a single entry: the element pointer is null exactly in the
two states in which the load has not been resolved.  This holds for every
entry of every reachable cache. -/
def coherentE (e : Entry Key Handle Elem) : Prop :=
  (e.state = State.requested ∨ e.state = State.prefetched) ↔ e.pElement = none

instance decCoherentE (e : Entry Key Handle Elem) : Decidable (coherentE e) := by
  unfold coherentE
  infer_instance

/-- The cache invariant: keys are pairwise distinct and every entry is
coherent. -/
def Inv (c : List (Entry Key Handle Elem)) : Prop :=
  (keys c).Nodup ∧ ∀ e ∈ c, coherentE e

/-- The public operations of the cache, used to describe reachable states. -/
inductive Op (Key Elem : Type)
  | request : Key → Op Key Elem
  | prefetchOp : Key → Op Key Elem
  | get : Key → Op Key Elem
  | releaseKey : Key → Bool → Op Key Elem
  | releaseElem : Option Elem → Bool → Op Key Elem
  | clear : Op Key Elem

/-- Runs one public operation on a cache and store state pair. -/
def runOp (bs : BackingStore σ Key Handle Elem) :
    List (Entry Key Handle Elem) × σ → Op Key Elem → List (Entry Key Handle Elem) × σ
  | (c, s), Op.request k => (Request bs c s k).2
  | (c, s), Op.prefetchOp k => Prefetch bs c s k
  | (c, s), Op.get k => ((Get bs s c k).2, s)
  | (c, s), Op.releaseKey k f => Release bs c s k f
  | (c, s), Op.releaseElem p f => ReleaseElem bs c s p f
  | (c, s), Op.clear => Clear bs c s

/-- Runs a sequence of public operations starting from the empty cache. -/
def run (bs : BackingStore σ Key Handle Elem) (s0 : σ) (ops : List (Op Key Elem)) :
    List (Entry Key Handle Elem) × σ :=
  ops.foldl (runOp bs) ([], s0)

/-- A concrete backing store over trivial store state: always has room, the
element of handle h is ready immediately with value h + 100. -/
def bsFree : BackingStore Unit Nat Nat Nat :=
  ⟨fun _ k => (k, ()), fun _ _ => (), fun _ _ => true, fun _ h => some (h + 100)⟩

/-- A concrete backing store that never has room. -/
def bsNoRoom : BackingStore Unit Nat Nat Nat :=
  ⟨fun _ k => (k, ()), fun _ _ => (), fun _ _ => false, fun _ h => some h⟩

/-- A concrete backing store whose state is the log of unloaded handles;
elements are never ready.  Unload appends the handle to the log, so a change
of state witnesses a call of Unload. -/
def bsLog : BackingStore (List Nat) Nat Nat Nat :=
  ⟨fun s k => (k, s), fun s h => s ++ [h], fun _ _ => true, fun _ _ => none⟩

/-- Boolean form of the eviction eligibility test used by the room-making
scan: released or prefetched. -/
def evictableB (e : Entry Key Handle Elem) : Bool :=
  e.state == State.released || e.state == State.prefetched

theorem evictableB_iff (e : Entry Key Handle Elem) :
    evictableB e = true ↔ (e.state = State.released ∨ e.state = State.prefetched) := by
  simp [evictableB]

theorem splitFirst_sound {α : Type} {p : α → Bool} :
    ∀ {c pre post : List α} {e : α}, splitFirst p c = some (pre, e, post) →
      c = pre ++ e :: post ∧ p e = true ∧ ∀ x ∈ pre, p x = false := by
  intro c
  induction c with
  | nil => intro pre post e h; simp [splitFirst] at h
  | cons x xs ih =>
    intro pre post e h
    by_cases hx : p x = true
    · simp only [splitFirst, if_pos hx, Option.some.injEq, Prod.mk.injEq] at h
      obtain ⟨hpre, he, hpost⟩ := h
      subst hpre; subst he; subst hpost
      exact ⟨rfl, hx, by simp⟩
    · cases hs : splitFirst p xs with
      | none => simp [splitFirst, hx, hs] at h
      | some r =>
        obtain ⟨pre1, e1, post1⟩ := r
        simp only [splitFirst, if_neg hx, hs, Option.some.injEq, Prod.mk.injEq] at h
        obtain ⟨hpre, he, hpost⟩ := h
        subst he; subst hpost
        obtain ⟨hc, hpe, hall⟩ := ih hs
        subst hpre
        refine ⟨by simp [hc], hpe, ?_⟩
        intro y hy
        rcases List.mem_cons.mp hy with rfl | hy2
        · exact Bool.eq_false_iff.mpr hx
        · exact hall y hy2

theorem splitFirst_none {α : Type} {p : α → Bool} :
    ∀ {c : List α}, splitFirst p c = none → ∀ x ∈ c, p x = false := by
  intro c
  induction c with
  | nil => intro _ x hx; simp at hx
  | cons y ys ih =>
    intro h x hx
    by_cases hy : p y = true
    · simp [splitFirst, hy] at h
    · cases hs : splitFirst p ys with
      | none =>
        rcases List.mem_cons.mp hx with rfl | hx2
        · exact Bool.eq_false_iff.mpr hy
        · exact ih hs x hx2
      | some r =>
        obtain ⟨a, b, c0⟩ := r
        simp [splitFirst, hy, hs] at h

theorem makeRoomGo_sublist (bs : BackingStore σ Key Handle Elem) (key : Key) :
    ∀ (c : List (Entry Key Handle Elem)) (s : σ), (makeRoomGo bs key c s).1.Sublist c := by
  intro c
  induction c with
  | nil => intro s; simp [makeRoomGo]
  | cons e rest ih =>
    intro s
    by_cases hroom : bs.hasRoomFor s key = true
    · simp [makeRoomGo, hroom]
    · by_cases hev : e.state = State.released ∨ e.state = State.prefetched
      · have hgo : makeRoomGo bs key (e :: rest) s = makeRoomGo bs key rest (Evict bs s e) := by
          simp [makeRoomGo, hroom, hev]
        rw [hgo]
        exact (ih (Evict bs s e)).trans (List.sublist_cons_self e rest)
      · have hgo : makeRoomGo bs key (e :: rest) s =
            (e :: (makeRoomGo bs key rest s).1, (makeRoomGo bs key rest s).2) := by
          simp [makeRoomGo, hroom, hev]
        rw [hgo]
        exact List.Sublist.cons₂ e (ih s)

/-- Full characterization of the room-making scan loop: it processes a
prefix of length n of the list, keeps exactly the non-evictable entries of
that prefix (in place, followed by the unprocessed suffix), unloads exactly
the evictable entries of that prefix in order, only processes an entry while
HasRoomFor is false, and stops exactly when HasRoomFor becomes true or the
tail is reached. -/
theorem makeRoomGo_spec (bs : BackingStore σ Key Handle Elem) (key : Key) :
    ∀ (c : List (Entry Key Handle Elem)) (s : σ), ∃ n, n ≤ c.length ∧
      (makeRoomGo bs key c s).1 = (c.take n).filter (fun e => !evictableB e) ++ c.drop n ∧
      (makeRoomGo bs key c s).2 = unloadAll bs s ((c.take n).filter evictableB) ∧
      (∀ m < n, bs.hasRoomFor (unloadAll bs s ((c.take m).filter evictableB)) key = false) ∧
      (bs.hasRoomFor (unloadAll bs s ((c.take n).filter evictableB)) key = true ∨ n = c.length) := by
  intro c
  induction c with
  | nil =>
    intro s
    refine ⟨0, Nat.le_refl 0, by simp [makeRoomGo], by simp [makeRoomGo, unloadAll], ?_, Or.inr rfl⟩
    intro m hm
    exact absurd hm (Nat.not_lt_zero m)
  | cons e rest ih =>
    intro s
    by_cases hroom : bs.hasRoomFor s key = true
    · refine ⟨0, Nat.zero_le _, by simp [makeRoomGo, hroom], by simp [makeRoomGo, hroom, unloadAll], ?_, ?_⟩
      · intro m hm
        exact absurd hm (Nat.not_lt_zero m)
      · left
        simpa [unloadAll] using hroom
    · have hroomf : bs.hasRoomFor s key = false := Bool.eq_false_iff.mpr hroom
      by_cases hev : e.state = State.released ∨ e.state = State.prefetched
      · have hevB : evictableB e = true := (evictableB_iff e).mpr hev
        obtain ⟨n, hn, h1, h2, h3, h4⟩ := ih (Evict bs s e)
        have hgo : makeRoomGo bs key (e :: rest) s = makeRoomGo bs key rest (Evict bs s e) := by
          simp [makeRoomGo, hroom, hev]
        refine ⟨n + 1, by simpa using Nat.succ_le_succ hn, ?_, ?_, ?_, ?_⟩
        · rw [hgo, h1]
          simp [hevB]
        · rw [hgo, h2]
          simp [unloadAll, hevB, Evict]
        · intro m hm
          cases m with
          | zero => simpa [unloadAll] using hroomf
          | succ m2 =>
            have := h3 m2 (by omega)
            simpa [unloadAll, hevB] using this
        · rcases h4 with h4 | h4
          · left
            simpa [unloadAll, hevB] using h4
          · right
            simp [h4]
      · have hevB : evictableB e = false := by
          rw [Bool.eq_false_iff]
          intro hc
          exact hev ((evictableB_iff e).mp hc)
        obtain ⟨n, hn, h1, h2, h3, h4⟩ := ih s
        have hgo : makeRoomGo bs key (e :: rest) s =
            (e :: (makeRoomGo bs key rest s).1, (makeRoomGo bs key rest s).2) := by
          simp [makeRoomGo, hroom, hev]
        refine ⟨n + 1, by simpa using Nat.succ_le_succ hn, ?_, ?_, ?_, ?_⟩
        · rw [hgo]
          simp [hevB, h1]
        · rw [hgo]
          simp [unloadAll, hevB, h2]
        · intro m hm
          cases m with
          | zero => simpa [unloadAll] using hroomf
          | succ m2 =>
            have := h3 m2 (by omega)
            simpa [unloadAll, hevB] using this
        · rcases h4 with h4 | h4
          · left
            simpa [unloadAll, hevB] using h4
          · right
            simp [h4]

/-- The Clear loop empties the list and folds Unload over every entry that
was present, in list order. -/
theorem clear_eq (bs : BackingStore σ Key Handle Elem) :
    ∀ (c : List (Entry Key Handle Elem)) (s : σ), Clear bs c s = ([], unloadAll bs s c) := by
  intro c
  induction c with
  | nil => intro s; simp [Clear, unloadAll]
  | cons e rest ih =>
    intro s
    rw [Clear, ih (Evict bs s e)]
    simp [unloadAll]

theorem keyMatch_false {key : Key} {x : Entry Key Handle Elem}
    (h : keyMatch key x = false) : x.key ≠ key := by
  simpa [keyMatch] using h

theorem keyMatch_true {key : Key} {x : Entry Key Handle Elem}
    (h : keyMatch key x = true) : x.key = key := by
  simpa [keyMatch] using h

theorem inv_nil : Inv ([] : List (Entry Key Handle Elem)) := by
  constructor
  · simp [keys]
  · intro e he
    simp at he

theorem self_mem_middle (pre post : List (Entry Key Handle Elem)) (e : Entry Key Handle Elem) :
    e ∈ pre ++ e :: post :=
  List.mem_append.mpr (Or.inr (List.mem_cons_self e post))

/-- Replacing the matched entry in place by one with the same key preserves
the invariant, provided the replacement is coherent. -/
theorem inv_update_middle {pre post : List (Entry Key Handle Elem)} {e e2 : Entry Key Handle Elem}
    (h : Inv (pre ++ e :: post)) (hkey : e2.key = e.key) (hcoh : coherentE e2) :
    Inv (pre ++ e2 :: post) := by
  obtain ⟨hnd, hcohs⟩ := h
  refine ⟨?_, ?_⟩
  · have hkeys : keys (pre ++ e2 :: post) = keys (pre ++ e :: post) := by
      simp [keys, hkey]
    rwa [hkeys]
  · intro x hx
    rcases List.mem_append.mp hx with hx | hx
    · exact hcohs x (List.mem_append.mpr (Or.inl hx))
    · rcases List.mem_cons.mp hx with rfl | hx
      · exact hcoh
      · exact hcohs x (List.mem_append.mpr (Or.inr (List.mem_cons_of_mem e hx)))

/-- Erasing the matched entry preserves the invariant. -/
theorem inv_remove_middle {pre post : List (Entry Key Handle Elem)} {e : Entry Key Handle Elem}
    (h : Inv (pre ++ e :: post)) : Inv (pre ++ post) := by
  obtain ⟨hnd, hcohs⟩ := h
  have hsub : (pre ++ post).Sublist (pre ++ e :: post) :=
    List.Sublist.append (List.Sublist.refl pre) (List.sublist_cons_self e post)
  refine ⟨?_, ?_⟩
  · simp only [keys] at hnd ⊢
    exact hnd.sublist (hsub.map Entry.key)
  · intro x hx
    exact hcohs x (hsub.subset hx)

/-- Splicing the matched entry to the tail, possibly with a coherent state
change that keeps its key, preserves the invariant. -/
theorem inv_move_to_end {pre post : List (Entry Key Handle Elem)} {e e2 : Entry Key Handle Elem}
    (h : Inv (pre ++ e :: post)) (hkey : e2.key = e.key) (hcoh : coherentE e2) :
    Inv (pre ++ post ++ [e2]) := by
  obtain ⟨hnd, hcohs⟩ := h
  refine ⟨?_, ?_⟩
  · simp only [keys, List.map_append, List.map_cons, List.map_nil] at hnd ⊢
    rw [hkey]
    have hperm : List.Perm (pre.map Entry.key ++ post.map Entry.key ++ [e.key])
        (pre.map Entry.key ++ e.key :: post.map Entry.key) := by
      rw [List.append_assoc]
      exact List.Perm.append_left _ (List.perm_append_singleton e.key (post.map Entry.key))
    exact hperm.symm.nodup hnd
  · intro x hx
    rcases List.mem_append.mp hx with hx | hx
    · rcases List.mem_append.mp hx with hx | hx
      · exact hcohs x (List.mem_append.mpr (Or.inl hx))
      · exact hcohs x (List.mem_append.mpr (Or.inr (List.mem_cons_of_mem e hx)))
    · have hx2 : x = e2 := by simpa using hx
      subst hx2
      exact hcoh

theorem inv_of_sublist {c1 c : List (Entry Key Handle Elem)} (hsub : c1.Sublist c)
    (h : Inv c) : Inv c1 := by
  obtain ⟨hnd, hcohs⟩ := h
  refine ⟨?_, ?_⟩
  · simp only [keys] at hnd ⊢
    exact hnd.sublist (hsub.map Entry.key)
  · intro x hx
    exact hcohs x (hsub.subset hx)

theorem makeRoom_cache_sublist (bs : BackingStore σ Key Handle Elem)
    (c : List (Entry Key Handle Elem)) (s : σ) (key : Key) :
    (MakeRoomForNewEntry bs c s key).2.1.Sublist c :=
  makeRoomGo_sublist bs key c s

/-- Fetch either fails, leaving the room-making result, or succeeds and
appends the freshly loaded entry at the tail of the room-making result. -/
theorem fetch_cases (bs : BackingStore σ Key Handle Elem)
    (c : List (Entry Key Handle Elem)) (s : σ) (key : Key) (st : State) :
    ((MakeRoomForNewEntry bs c s key).1 = true ∧
      (Fetch bs c s key st).2.1 = (MakeRoomForNewEntry bs c s key).2.1 ++
        [⟨key, st, (bs.load (MakeRoomForNewEntry bs c s key).2.2 key).1, none⟩]) ∨
    ((MakeRoomForNewEntry bs c s key).1 = false ∧
      (Fetch bs c s key st).2.1 = (MakeRoomForNewEntry bs c s key).2.1) := by
  by_cases hok : (MakeRoomForNewEntry bs c s key).1 = true
  · exact Or.inl ⟨hok, by simp [Fetch, hok]⟩
  · have hok2 := Bool.eq_false_iff.mpr hok
    exact Or.inr ⟨hok2, by simp [Fetch, hok2]⟩

theorem inv_fetch (bs : BackingStore σ Key Handle Elem) {c : List (Entry Key Handle Elem)}
    (s : σ) {key : Key} (h : Inv c) (habs : ∀ x ∈ c, x.key ≠ key) {st : State}
    (hst : st = State.requested ∨ st = State.prefetched) :
    Inv (Fetch bs c s key st).2.1 := by
  have hmr : Inv (MakeRoomForNewEntry bs c s key).2.1 :=
    inv_of_sublist (makeRoom_cache_sublist bs c s key) h
  rcases fetch_cases bs c s key st with ⟨_, heq⟩ | ⟨_, heq⟩
  · rw [heq]
    obtain ⟨hnd, hcohs⟩ := hmr
    refine ⟨?_, ?_⟩
    · simp only [keys, List.map_append, List.map_cons, List.map_nil] at hnd ⊢
      refine hnd.append (List.nodup_singleton key) ?_
      rw [List.disjoint_singleton]
      intro hk
      obtain ⟨x, hx, hxk⟩ := List.mem_map.mp hk
      exact habs x ((makeRoom_cache_sublist bs c s key).subset hx) hxk
    · intro x hx
      rcases List.mem_append.mp hx with hx | hx
      · exact hcohs x hx
      · have hx2 : x = ⟨key, st, (bs.load (MakeRoomForNewEntry bs c s key).2.2 key).1, none⟩ := by
          simpa using hx
        subst hx2
        exact ⟨fun _ => rfl, fun _ => hst⟩
  · rw [heq]
    exact hmr

theorem inv_request (bs : BackingStore σ Key Handle Elem) (c : List (Entry Key Handle Elem))
    (s : σ) (key : Key) (h : Inv c) : Inv (Request bs c s key).2.1 := by
  cases hsplit : splitFirst (keyMatch key) c with
  | none =>
    have habs : ∀ x ∈ c, x.key ≠ key := fun x hx => keyMatch_false (splitFirst_none hsplit x hx)
    have heq : (Request bs c s key).2.1 = (Fetch bs c s key State.requested).2.1 := by
      simp [Request, hsplit]
    rw [heq]
    exact inv_fetch bs s h habs (Or.inl rfl)
  | some r =>
    obtain ⟨pre, e, post⟩ := r
    obtain ⟨hc, -, -⟩ := splitFirst_sound hsplit
    subst hc
    have hecoh : coherentE e := h.2 e (self_mem_middle pre post e)
    cases hstate : e.state with
    | requested =>
      have heq : (Request bs (pre ++ e :: post) s key).2.1 = pre ++ e :: post := by
        simp [Request, hsplit, hstate]
      rw [heq]
      exact h
    | available =>
      have heq : (Request bs (pre ++ e :: post) s key).2.1 = pre ++ e :: post := by
        simp [Request, hsplit, hstate]
      rw [heq]
      exact h
    | prefetched =>
      cases hget : bs.getElement s e.handle with
      | some p =>
        have heq : (Request bs (pre ++ e :: post) s key).2.1 =
            pre ++ { e with state := State.available, pElement := some p } :: post := by
          simp [Request, hsplit, hstate, hget]
        rw [heq]
        exact inv_update_middle h rfl (by simp [coherentE])
      | none =>
        have hpe0 : e.pElement = none := hecoh.mp (Or.inr hstate)
        have heq : (Request bs (pre ++ e :: post) s key).2.1 =
            pre ++ { e with state := State.requested } :: post := by
          simp [Request, hsplit, hstate, hget]
        rw [heq]
        exact inv_update_middle h rfl (by simp [coherentE, hpe0])
    | released =>
      have hpne : e.pElement ≠ none := by
        intro h0
        rcases hecoh.mpr h0 with h1 | h1 <;> rw [hstate] at h1 <;> exact State.noConfusion h1
      have heq : (Request bs (pre ++ e :: post) s key).2.1 =
          pre ++ { e with state := State.available } :: post := by
        simp [Request, hsplit, hstate]
      rw [heq]
      exact inv_update_middle h rfl (by simp [coherentE, hpne])

theorem inv_prefetch (bs : BackingStore σ Key Handle Elem) (c : List (Entry Key Handle Elem))
    (s : σ) (key : Key) (h : Inv c) : Inv (Prefetch bs c s key).1 := by
  cases hsplit : splitFirst (keyMatch key) c with
  | none =>
    have habs : ∀ x ∈ c, x.key ≠ key := fun x hx => keyMatch_false (splitFirst_none hsplit x hx)
    have heq : (Prefetch bs c s key).1 = (Fetch bs c s key State.prefetched).2.1 := by
      simp [Prefetch, hsplit]
    rw [heq]
    exact inv_fetch bs s h habs (Or.inr rfl)
  | some r =>
    obtain ⟨pre, e, post⟩ := r
    obtain ⟨hc, -, -⟩ := splitFirst_sound hsplit
    subst hc
    have hecoh : coherentE e := h.2 e (self_mem_middle pre post e)
    cases hstate : e.state with
    | requested =>
      have heq : (Prefetch bs (pre ++ e :: post) s key).1 = pre ++ e :: post := by
        simp [Prefetch, hsplit, hstate]
      rw [heq]
      exact h
    | available =>
      have heq : (Prefetch bs (pre ++ e :: post) s key).1 = pre ++ e :: post := by
        simp [Prefetch, hsplit, hstate]
      rw [heq]
      exact h
    | prefetched =>
      have heq : (Prefetch bs (pre ++ e :: post) s key).1 = pre ++ post ++ [e] := by
        simp [Prefetch, hsplit, hstate]
      rw [heq]
      exact inv_move_to_end h rfl hecoh
    | released =>
      have heq : (Prefetch bs (pre ++ e :: post) s key).1 = pre ++ post ++ [e] := by
        simp [Prefetch, hsplit, hstate]
      rw [heq]
      exact inv_move_to_end h rfl hecoh

theorem inv_get (bs : BackingStore σ Key Handle Elem) (s : σ) (c : List (Entry Key Handle Elem))
    (key : Key) (h : Inv c) : Inv (Get bs s c key).2 := by
  cases hsplit : splitFirst (keyMatch key) c with
  | none =>
    have heq : (Get bs s c key).2 = c := by simp [Get, hsplit]
    rw [heq]
    exact h
  | some r =>
    obtain ⟨pre, e, post⟩ := r
    obtain ⟨hc, -, -⟩ := splitFirst_sound hsplit
    subst hc
    by_cases hstate : e.state = State.requested
    · cases hget : bs.getElement s e.handle with
      | some p =>
        have heq : (Get bs s (pre ++ e :: post) key).2 =
            pre ++ { e with state := State.available, pElement := some p } :: post := by
          simp [Get, hsplit, hstate, hget]
        rw [heq]
        exact inv_update_middle h rfl (by simp [coherentE])
      | none =>
        have heq : (Get bs s (pre ++ e :: post) key).2 = pre ++ e :: post := by
          simp [Get, hsplit, hstate, hget]
        rw [heq]
        exact h
    · have heq : (Get bs s (pre ++ e :: post) key).2 = pre ++ e :: post := by
        simp [Get, hsplit, hstate]
      rw [heq]
      exact h

theorem inv_releaseFound (bs : BackingStore σ Key Handle Elem) (s : σ)
    {pre post : List (Entry Key Handle Elem)} {e : Entry Key Handle Elem} (force : Bool)
    (h : Inv (pre ++ e :: post)) : Inv (ReleaseFound bs s pre e post force).1 := by
  have hecoh : coherentE e := h.2 e (self_mem_middle pre post e)
  by_cases h1 : e.state = State.requested ∨ force = true
  · have heq : (ReleaseFound bs s pre e post force).1 = pre ++ post := by
      simp [ReleaseFound, h1]
    rw [heq]
    exact inv_remove_middle h
  · have hf : force = false := by
      cases force
      · rfl
      · exact absurd (Or.inr rfl) h1
    have hneq : e.state ≠ State.requested := fun hr => h1 (Or.inl hr)
    by_cases h2 : e.state = State.available
    · have hpne : e.pElement ≠ none := by
        intro h0
        rcases hecoh.mpr h0 with h3 | h3 <;> rw [h2] at h3 <;> exact State.noConfusion h3
      have heq : (ReleaseFound bs s pre e post force).1 =
          pre ++ post ++ [{ e with state := State.released }] := by
        simp [ReleaseFound, hneq, hf, h2]
      rw [heq]
      exact inv_move_to_end h rfl (by simp [coherentE, hpne])
    · have heq : (ReleaseFound bs s pre e post force).1 = pre ++ e :: post := by
        simp [ReleaseFound, hneq, hf, h2]
      rw [heq]
      exact h

theorem inv_release (bs : BackingStore σ Key Handle Elem) (c : List (Entry Key Handle Elem))
    (s : σ) (key : Key) (force : Bool) (h : Inv c) : Inv (Release bs c s key force).1 := by
  cases hsplit : splitFirst (keyMatch key) c with
  | none =>
    have heq : (Release bs c s key force).1 = c := by simp [Release, hsplit]
    rw [heq]
    exact h
  | some r =>
    obtain ⟨pre, e, post⟩ := r
    obtain ⟨hc, -, -⟩ := splitFirst_sound hsplit
    subst hc
    have heq : (Release bs (pre ++ e :: post) s key force).1 =
        (ReleaseFound bs s pre e post force).1 := by
      simp [Release, hsplit]
    rw [heq]
    exact inv_releaseFound bs s force h

theorem inv_releaseElem (bs : BackingStore σ Key Handle Elem) (c : List (Entry Key Handle Elem))
    (s : σ) (p : Option Elem) (force : Bool) (h : Inv c) :
    Inv (ReleaseElem bs c s p force).1 := by
  cases hsplit : splitFirst (elemMatch p) c with
  | none =>
    have heq : (ReleaseElem bs c s p force).1 = c := by simp [ReleaseElem, hsplit]
    rw [heq]
    exact h
  | some r =>
    obtain ⟨pre, e, post⟩ := r
    obtain ⟨hc, -, -⟩ := splitFirst_sound hsplit
    subst hc
    have heq : (ReleaseElem bs (pre ++ e :: post) s p force).1 =
        (ReleaseFound bs s pre e post force).1 := by
      simp [ReleaseElem, hsplit]
    rw [heq]
    exact inv_releaseFound bs s force h

theorem inv_clear (bs : BackingStore σ Key Handle Elem) (c : List (Entry Key Handle Elem))
    (s : σ) : Inv (Clear bs c s).1 := by
  rw [clear_eq]
  exact inv_nil

theorem inv_runOp (bs : BackingStore σ Key Handle Elem) (p : List (Entry Key Handle Elem) × σ)
    (op : Op Key Elem) (hp : Inv p.1) : Inv (runOp bs p op).1 := by
  obtain ⟨c, s⟩ := p
  cases op with
  | request k => exact inv_request bs c s k hp
  | prefetchOp k => exact inv_prefetch bs c s k hp
  | get k => exact inv_get bs s c k hp
  | releaseKey k f => exact inv_release bs c s k f hp
  | releaseElem q f => exact inv_releaseElem bs c s q f hp
  | clear => exact inv_clear bs c s

theorem inv_run (bs : BackingStore σ Key Handle Elem) (s0 : σ) (ops : List (Op Key Elem)) :
    Inv (run bs s0 ops).1 := by
  suffices hgen : ∀ (l : List (Op Key Elem)) (p : List (Entry Key Handle Elem) × σ),
      Inv p.1 → Inv (l.foldl (runOp bs) p).1 by
    exact hgen ops ([], s0) inv_nil
  intro l
  induction l with
  | nil =>
    intro p hp
    simpa using hp
  | cons op rest ih =>
    intro p hp
    rw [List.foldl_cons]
    exact ih _ (inv_runOp bs p op hp)

/-- Claim C1 counterexample.  In the reachable state produced by requesting
key 1, resolving it with Get, and then releasing it, the entry for key 1 is
in the released state, yet Get returns the stored element pointer and not
none as the claim states for released entries. -/
theorem get_released_returns_element_counterexample :
    (run bsFree () [Op.request 1, Op.get 1, Op.releaseKey 1 false]).1 =
      [⟨1, State.released, 1, some 101⟩] ∧
    (Get bsFree () [⟨1, State.released, 1, some 101⟩] 1).1 = some 101 :=
  ⟨by decide, by decide⟩

/-- Claim C1 (amended).  For every cache whose entries are coherent (which
holds in every reachable state): for an absent key Get returns none and
leaves the cache unchanged; on an available entry it returns the stored
element reference; on a released entry it likewise returns the previously
stored (non-null) element reference, not none; on a prefetched entry it
returns none; and only on a requested entry does it resolve readiness,
promoting the entry to available and capturing the element when the backing
store reports it ready. -/
theorem get_characterization (bs : BackingStore σ Key Handle Elem) (s : σ)
    (c : List (Entry Key Handle Elem)) (key : Key) (hcoh : ∀ e ∈ c, coherentE e) :
    (splitFirst (keyMatch key) c = none → Get bs s c key = (none, c)) ∧
    (∀ pre e post, splitFirst (keyMatch key) c = some (pre, e, post) →
      (e.state = State.available → ∃ v, e.pElement = some v ∧ Get bs s c key = (some v, c)) ∧
      (e.state = State.released → ∃ v, e.pElement = some v ∧ Get bs s c key = (some v, c)) ∧
      (e.state = State.prefetched → Get bs s c key = (none, c)) ∧
      (e.state = State.requested →
        (bs.getElement s e.handle = none → Get bs s c key = (none, c)) ∧
        (∀ p, bs.getElement s e.handle = some p →
          Get bs s c key =
            (some p, pre ++ { e with state := State.available, pElement := some p } :: post))))
    := by
  constructor
  · intro hs
    simp [Get, hs]
  · intro pre e post hs
    have hmem : e ∈ c := by
      obtain ⟨hc, -, -⟩ := splitFirst_sound hs
      rw [hc]
      exact self_mem_middle pre post e
    have hecoh := hcoh e hmem
    refine ⟨?_, ?_, ?_, ?_⟩
    · intro hav
      have hpne : e.pElement ≠ none := by
        intro h0
        rcases hecoh.mpr h0 with h1 | h1 <;> rw [hav] at h1 <;> exact State.noConfusion h1
      rcases Option.eq_none_or_eq_some e.pElement with h0 | ⟨v, hv⟩
      · exact absurd h0 hpne
      · refine ⟨v, hv, ?_⟩
        have hneq : e.state ≠ State.requested := by rw [hav]; decide
        simp [Get, hs, hneq, hv]
    · intro hrel
      have hpne : e.pElement ≠ none := by
        intro h0
        rcases hecoh.mpr h0 with h1 | h1 <;> rw [hrel] at h1 <;> exact State.noConfusion h1
      rcases Option.eq_none_or_eq_some e.pElement with h0 | ⟨v, hv⟩
      · exact absurd h0 hpne
      · refine ⟨v, hv, ?_⟩
        have hneq : e.state ≠ State.requested := by rw [hrel]; decide
        simp [Get, hs, hneq, hv]
    · intro hpf
      have hpe0 : e.pElement = none := hecoh.mp (Or.inr hpf)
      have hneq : e.state ≠ State.requested := by rw [hpf]; decide
      simp [Get, hs, hneq, hpe0]
    · intro hreq
      have hpe0 : e.pElement = none := hecoh.mp (Or.inl hreq)
      constructor
      · intro hget
        simp [Get, hs, hreq, hget, hpe0]
      · intro p hget
        simp [Get, hs, hreq, hget]

/-- Witness for the amended claim C1 at a concrete released entry. -/
theorem get_characterization_witness :
    Get bsFree () [⟨1, State.released, 5, some 7⟩] 1 = (some 7, [⟨1, State.released, 5, some 7⟩]) := by
  have h := get_characterization bsFree () [⟨1, State.released, 5, some 7⟩] 1 (by decide)
  obtain ⟨v, hv, hg⟩ :=
    ((h.2 [] ⟨1, State.released, 5, some 7⟩ [] (by decide)).2.1 rfl)
  have hv7 : (7 : Nat) = v := by simpa using hv
  rw [← hv7] at hg
  exact hg

/-- Claim C2.  IsEmpty, as modelled by the value the source computes into
its local variable (the source is missing the return statement, so the value
the compiled function actually returns is undefined), is true exactly when
the entry store holds zero entries. -/
theorem isEmpty_computed_iff_no_entries (c : List (Entry Key Handle Elem)) :
    IsEmpty c = true ↔ c = [] := by
  cases c <;> simp [IsEmpty]

/-- Claim C3 counterexample.  With forceEviction true, Release on an entry
in the released state does evict it: the entry is removed from the store and
its handle unloaded (visible in the log backing store), contradicting the
claim that for any value of forceEviction the entry is neither transitioned
nor removed. -/
theorem release_forced_on_released_removes_counterexample :
    Release bsLog [⟨1, State.released, 5, some 7⟩] ([] : List Nat) 1 true = ([], [5]) := by
  decide

/-- Claim C3 (amended).  Releasing an entry in the prefetched or released
state with forceEviction false reaches the error branch of the internal
state dispatch, which is a no-op: nothing is reported at run time (the
contract violation is noted only by a source comment) and the cache and
store are left entirely unchanged.  With forceEviction true the entry is
evicted: removed from the store and its handle unloaded. -/
theorem release_inactive_states_behavior (bs : BackingStore σ Key Handle Elem)
    (c : List (Entry Key Handle Elem)) (s : σ) (key : Key)
    (pre : List (Entry Key Handle Elem)) (e : Entry Key Handle Elem)
    (post : List (Entry Key Handle Elem))
    (hsplit : splitFirst (keyMatch key) c = some (pre, e, post))
    (hst : e.state = State.prefetched ∨ e.state = State.released) :
    Release bs c s key false = (c, s) ∧
    Release bs c s key true = (pre ++ post, bs.unload s e.handle) := by
  obtain ⟨hc, -, -⟩ := splitFirst_sound hsplit
  have hneq : e.state ≠ State.requested := by
    rcases hst with h1 | h1 <;> rw [h1] <;> decide
  have hnav : e.state ≠ State.available := by
    rcases hst with h1 | h1 <;> rw [h1] <;> decide
  constructor
  · have heq : Release bs c s key false = (pre ++ e :: post, s) := by
      simp [Release, hsplit, ReleaseFound, hneq, hnav]
    rw [heq, ← hc]
  · simp [Release, hsplit, ReleaseFound, Evict]

/-- Witness for the amended claim C3 at a concrete prefetched entry. -/
theorem release_inactive_states_behavior_witness :
    Release bsLog [⟨1, State.prefetched, 5, (none : Option Nat)⟩] ([] : List Nat) 1 false =
      ([⟨1, State.prefetched, 5, none⟩], []) ∧
    Release bsLog [⟨1, State.prefetched, 5, (none : Option Nat)⟩] ([] : List Nat) 1 true =
      ([], [5]) :=
  release_inactive_states_behavior bsLog [⟨1, State.prefetched, 5, none⟩] [] 1
    [] ⟨1, State.prefetched, 5, none⟩ [] (by decide) (Or.inl rfl)

/-- Claim C4.  The room-making algorithm scans the store from head toward
tail: there is a scanned prefix of length n such that the resulting store
keeps exactly the non-evictable (requested or available) entries of that
prefix in place followed by the untouched suffix, the backing store receives
exactly one Unload per evictable (released or prefetched) scanned entry in
order, an entry is only processed while HasRoomFor is false, the scan stops
exactly when HasRoomFor becomes true or the tail is reached, and the
returned value is the final value of HasRoomFor. -/
theorem makeRoom_scan_characterization (bs : BackingStore σ Key Handle Elem)
    (c : List (Entry Key Handle Elem)) (s : σ) (key : Key) :
    ∃ n, n ≤ c.length ∧
      (MakeRoomForNewEntry bs c s key).2.1 =
        (c.take n).filter (fun e => !evictableB e) ++ c.drop n ∧
      (MakeRoomForNewEntry bs c s key).2.2 = unloadAll bs s ((c.take n).filter evictableB) ∧
      (MakeRoomForNewEntry bs c s key).1 =
        bs.hasRoomFor (MakeRoomForNewEntry bs c s key).2.2 key ∧
      (∀ m < n, bs.hasRoomFor (unloadAll bs s ((c.take m).filter evictableB)) key = false) ∧
      (bs.hasRoomFor (unloadAll bs s ((c.take n).filter evictableB)) key = true ∨ n = c.length)
    := by
  obtain ⟨n, hn, h1, h2, h3, h4⟩ := makeRoomGo_spec bs key c s
  exact ⟨n, hn, h1, h2, rfl, h3, h4⟩

theorem fetch_ok_eq (bs : BackingStore σ Key Handle Elem) (c : List (Entry Key Handle Elem))
    (s : σ) (key : Key) (st : State) :
    (Fetch bs c s key st).1 = (MakeRoomForNewEntry bs c s key).1 := by
  by_cases hok : (MakeRoomForNewEntry bs c s key).1 = true
  · simp [Fetch, hok]
  · simp [Fetch, Bool.eq_false_iff.mpr hok]

/-- Claim C5.  Request returns false only when no entry for the key exists
and room-making fails; and in that case no entry for the key exists
afterwards either. -/
theorem request_false_characterization (bs : BackingStore σ Key Handle Elem)
    (c : List (Entry Key Handle Elem)) (s : σ) (key : Key)
    (hfail : (Request bs c s key).1 = false) :
    (∀ x ∈ c, x.key ≠ key) ∧
    (MakeRoomForNewEntry bs c s key).1 = false ∧
    (∀ x ∈ (Request bs c s key).2.1, x.key ≠ key) := by
  cases hsplit : splitFirst (keyMatch key) c with
  | some r =>
    obtain ⟨pre, e, post⟩ := r
    exfalso
    cases hstate : e.state with
    | requested => simp [Request, hsplit, hstate] at hfail
    | available => simp [Request, hsplit, hstate] at hfail
    | released => simp [Request, hsplit, hstate] at hfail
    | prefetched =>
      cases hget : bs.getElement s e.handle with
      | some p => simp [Request, hsplit, hstate, hget] at hfail
      | none => simp [Request, hsplit, hstate, hget] at hfail
  | none =>
    have habs : ∀ x ∈ c, x.key ≠ key := fun x hx => keyMatch_false (splitFirst_none hsplit x hx)
    have hreq : Request bs c s key = Fetch bs c s key State.requested := by
      simp [Request, hsplit]
    rw [hreq] at hfail
    have hm : (MakeRoomForNewEntry bs c s key).1 = false := by
      rw [← fetch_ok_eq bs c s key State.requested]
      exact hfail
    refine ⟨habs, hm, ?_⟩
    rcases fetch_cases bs c s key State.requested with ⟨hok, -⟩ | ⟨-, heq⟩
    · rw [hm] at hok
      exact absurd hok (by decide)
    · rw [hreq, heq]
      intro x hx
      exact habs x ((makeRoom_cache_sublist bs c s key).subset hx)

/-- Witness for claim C5: a request on an absent key with a backing store
that never has room fails and creates nothing. -/
theorem request_false_characterization_witness :
    (∀ x ∈ ([] : List (Entry Nat Nat Nat)), x.key ≠ 0) ∧
    (MakeRoomForNewEntry bsNoRoom [] () 0).1 = false ∧
    (∀ x ∈ (Request bsNoRoom [] () 0).2.1, x.key ≠ 0) :=
  request_false_characterization bsNoRoom [] () 0 (by decide)

/-- Claim C6.  Request on an entry in the released state promotes it in
place back to available, reusing the stored handle and element pointer, and
returns true.  The equation holds for every backing store and returns the
store state unchanged, so no backing-store operation (Load, Unload,
HasRoomFor or GetElement) is invoked or consulted. -/
theorem request_released_reload_no_backing_calls (bs : BackingStore σ Key Handle Elem)
    (c : List (Entry Key Handle Elem)) (s : σ) (key : Key)
    (pre : List (Entry Key Handle Elem)) (e : Entry Key Handle Elem)
    (post : List (Entry Key Handle Elem))
    (hsplit : splitFirst (keyMatch key) c = some (pre, e, post))
    (hst : e.state = State.released) :
    Request bs c s key = (true, pre ++ { e with state := State.available } :: post, s) := by
  simp [Request, hsplit, hst]

/-- Witness for claim C6 at a concrete released entry, with the logging
backing store: the log stays empty, so Unload was never called. -/
theorem request_released_reload_witness :
    Request bsLog [⟨1, State.released, 5, some 7⟩] ([] : List Nat) 1 =
      (true, [⟨1, State.available, 5, some 7⟩], []) :=
  request_released_reload_no_backing_calls bsLog [⟨1, State.released, 5, some 7⟩] [] 1
    [] ⟨1, State.released, 5, some 7⟩ [] (by decide) rfl

/-- Claim C7.  Clear empties the store entirely, regardless of the state of
any entry, folding Unload exactly once over the handle of every entry that
existed, in list order, including entries still loading; IsEmpty (as the
source computes it) is true on the result. -/
theorem clear_empties_and_unloads_all (bs : BackingStore σ Key Handle Elem)
    (c : List (Entry Key Handle Elem)) (s : σ) :
    Clear bs c s = ([], c.foldl (fun t e => bs.unload t e.handle) s) ∧
    IsEmpty (Clear bs c s).1 = true := by
  have h := clear_eq bs c s
  exact ⟨h, by rw [h]; rfl⟩

/-- Claim C8.  After any sequence of public operations starting from the
empty cache, with any backing store, no two entries of the store have equal
keys. -/
theorem run_keys_nodup (bs : BackingStore σ Key Handle Elem) (s0 : σ)
    (ops : List (Op Key Elem)) : (keys (run bs s0 ops).1).Nodup :=
  (inv_run bs s0 ops).1

/-- Claim C9.  Request on an entry in the available state returns true and
leaves the entire cache and store state unchanged, for every backing store,
so no backing-store operation is invoked or consulted; iterating the call
any number of times changes nothing. -/
theorem request_available_idempotent_no_calls (bs : BackingStore σ Key Handle Elem)
    (c : List (Entry Key Handle Elem)) (s : σ) (key : Key)
    (pre : List (Entry Key Handle Elem)) (e : Entry Key Handle Elem)
    (post : List (Entry Key Handle Elem))
    (hsplit : splitFirst (keyMatch key) c = some (pre, e, post))
    (hst : e.state = State.available) :
    Request bs c s key = (true, c, s) ∧
    ∀ n : Nat,
      (fun p : List (Entry Key Handle Elem) × σ => (Request bs p.1 p.2 key).2)^[n] (c, s) = (c, s)
    := by
  have h1 : Request bs c s key = (true, c, s) := by
    simp [Request, hsplit, hst]
  refine ⟨h1, ?_⟩
  intro n
  apply Function.iterate_fixed
  show (Request bs c s key).2 = (c, s)
  rw [h1]

/-- Witness for claim C9 at a concrete available entry, including three
iterated calls. -/
theorem request_available_idempotent_witness :
    Request bsLog [⟨1, State.available, 5, some 7⟩] ([] : List Nat) 1 =
      (true, [⟨1, State.available, 5, some 7⟩], []) ∧
    (fun p : List (Entry Nat Nat Nat) × List Nat => (Request bsLog p.1 p.2 1).2)^[3]
      ([⟨1, State.available, 5, some 7⟩], []) = ([⟨1, State.available, 5, some 7⟩], []) := by
  have h := request_available_idempotent_no_calls bsLog [⟨1, State.available, 5, some 7⟩] [] 1
    [] ⟨1, State.available, 5, some 7⟩ [] (by decide) rfl
  exact ⟨h.1, h.2 3⟩

/-- Claim C10 counterexample.  A cache holding a single prefetched entry
(element reference still null) is left entirely unchanged by Release with a
null element pointer and forceEviction false: the matched entry is neither
released nor evicted, and no Unload reaches the backing store. -/
theorem release_null_on_prefetched_noop_counterexample :
    ReleaseElem bsLog [⟨1, State.prefetched, 5, (none : Option Nat)⟩] ([] : List Nat) none false =
      ([⟨1, State.prefetched, 5, none⟩], []) := by
  decide

/-- Claim C10 (amended).  Release with a null element pointer matches the
first entry whose element pointer is null (every earlier entry has a
non-null pointer) and dispatches the release on it: when that entry is
requested, or forceEviction is true, the entry is evicted (unloaded and
removed); but when it is prefetched and forceEviction is false, the dispatch
falls into the error branch and nothing happens. -/
theorem release_null_matches_first_unresolved (bs : BackingStore σ Key Handle Elem)
    (c : List (Entry Key Handle Elem)) (s : σ) (force : Bool)
    (pre : List (Entry Key Handle Elem)) (e : Entry Key Handle Elem)
    (post : List (Entry Key Handle Elem))
    (hsplit : splitFirst (elemMatch (none : Option Elem)) c = some (pre, e, post)) :
    e.pElement = none ∧
    (∀ x ∈ pre, x.pElement ≠ none) ∧
    (e.state = State.requested ∨ force = true →
      ReleaseElem bs c s none force = (pre ++ post, bs.unload s e.handle)) ∧
    (e.state = State.prefetched → force = false →
      ReleaseElem bs c s none force = (c, s)) := by
  obtain ⟨hc, hpe, hall⟩ := splitFirst_sound hsplit
  have hpe0 : e.pElement = none := by simpa [elemMatch] using hpe
  refine ⟨hpe0, ?_, ?_, ?_⟩
  · intro x hx
    have := hall x hx
    simpa [elemMatch] using this
  · intro hcond
    simp [ReleaseElem, hsplit, ReleaseFound, hcond, Evict]
  · intro hpf hforce
    have hneq : e.state ≠ State.requested := by rw [hpf]; decide
    have hnav : e.state ≠ State.available := by rw [hpf]; decide
    have heq : ReleaseElem bs c s none force = (pre ++ e :: post, s) := by
      simp [ReleaseElem, hsplit, ReleaseFound, hneq, hnav, hforce]
    rw [heq, ← hc]

/-- Witness for the amended claim C10: a null-pointer release on a cache
whose first unresolved entry is requested evicts that entry. -/
theorem release_null_matches_first_unresolved_witness :
    ReleaseElem bsLog [⟨1, State.requested, 5, (none : Option Nat)⟩] ([] : List Nat) none false =
      ([], [5]) :=
  (release_null_matches_first_unresolved bsLog [⟨1, State.requested, 5, none⟩] [] false
    [] ⟨1, State.requested, 5, none⟩ [] (by decide)).2.2.1 (Or.inl rfl)

end AsynchronousCache
